import Mathlib

/-!
A verification development for the minimalistic mesh slicer
(src/slicer.cpp).  The slicer stores a mesh as a growable sequence of
vertex positions and a growable sequence of index triangles, and cuts the
mesh by a plane given by an origin point and a normal vector.

Shallow embedding conventions:
* C++ `double` arithmetic is modelled by exact rationals.  The only place
  the source relies on IEEE special values is `get_lambda`, whose result
  is non-finite exactly when the denominator is zero (the caller treats
  every non-finite value as "no intersection"); we model this with
  `Option` and return `none` on a zero denominator.
* `std::vector` becomes `List`; out-of-range indexing (undefined
  behaviour in the source) reads a default value.
* `std::map<std::pair<int,int>,int>` becomes an association list; the
  source looks a key up before every insert, so the key set is duplicate
  free and list position is irrelevant.
* The `cut` loop has no structural termination argument in the source; we
  run it with explicit fuel (`7 * triangles.length + 1`, proved sufficient
  below) and return `none` if the fuel is exhausted with the loop still
  running, so `cut s = some s'` states genuine termination.
-/

namespace MeshSlicer

/-- A 3-component vector, modelling the source's 3-array of doubles with
exact rationals. -/
structure Vec3 where
  x : ℚ
  y : ℚ
  z : ℚ
deriving DecidableEq

/-- An index triangle: the source's 3-array of ints. -/
structure Tri where
  a : ℤ
  b : ℤ
  c : ℤ
deriving DecidableEq

/-- Cyclic component access `t[n % 3]`, matching the source's
`triangles[tid][(n+_) % 3]` reads. -/
def Tri.get (t : Tri) (n : ℕ) : ℤ :=
  match n % 3 with
  | 0 => t.a
  | 1 => t.b
  | _ => t.c

/-- The slicer state: vertex positions, triangles, the cutting plane and
the intersection cache. -/
structure Slicer where
  positions : List Vec3
  triangles : List Tri
  origin : Vec3
  normal : Vec3
  intersections : List ((ℤ × ℤ) × ℤ)
deriving DecidableEq

/-- Read `positions[i]` with an `int` subscript; out of range is undefined
behaviour in the source and reads a default here. -/
def getPos (l : List Vec3) (i : ℤ) : Vec3 :=
  if 0 ≤ i then l.getD i.toNat ⟨0, 0, 0⟩ else ⟨0, 0, 0⟩

/-- Read `triangles[tid]`; out of range reads a default. -/
def getTri (l : List Tri) (tid : ℕ) : Tri :=
  l.getD tid ⟨0, 0, 0⟩

/-- Association-list lookup for the intersection cache
(`intersections.find(key)`). -/
def lookupEdge : List ((ℤ × ℤ) × ℤ) → ℤ × ℤ → Option ℤ
  | [], _ => none
  | kv :: rest, key => if kv.1 = key then some kv.2 else lookupEdge rest key

/-- The hardcoded precision constant of the source (`0.00001`). -/
def precision : ℚ := 1 / 100000

/-- `get_lambda`: the parameter `lam` with `lam*P + (1-lam)*Q` on the
plane.  A zero denominator makes the double result non-finite (infinite or
NaN); we return `none` in that case, `some (num / den)` otherwise. -/
def get_lambda (origin normal p q : Vec3) : Option ℚ :=
  let num := (origin.x - q.x) * normal.x
           + (origin.y - q.y) * normal.y
           + (origin.z - q.z) * normal.z
  let den := (p.x - q.x) * normal.x
           + (p.y - q.y) * normal.y
           + (p.z - q.z) * normal.z
  if den = 0 then none else some (num / den)

/-- The smaller endpoint after the source's `if (i > j) std::swap(i, j)`. -/
def lo (i j : ℤ) : ℤ := if i > j then j else i

/-- The larger endpoint after the source's swap. -/
def hi (i j : ℤ) : ℤ := if i > j then i else j

/-- The interpolated intersection point `lam*P + (1-lam)*Q`. -/
def interp (lam : ℚ) (p q : Vec3) : Vec3 :=
  ⟨lam * p.x + (1 - lam) * q.x,
   lam * p.y + (1 - lam) * q.y,
   lam * p.z + (1 - lam) * q.z⟩

/-- `get_intersection`: if edge `[ij]` crosses the plane, return the index
of the split vertex (cached, or freshly appended to the mesh); otherwise
return `-1`.  Mirrors the source line by line: canonicalise so `i < j`,
compute lambda, reject non-finite or out-of-tolerance lambda, consult the
cache, otherwise interpolate and append. -/
def get_intersection (s : Slicer) (i j : ℤ) : ℤ × Slicer :=
  let p := getPos s.positions (lo i j)
  let q := getPos s.positions (hi i j)
  match get_lambda s.origin s.normal p q with
  | none => (-1, s)
  | some lam =>
    if lam < precision ∨ lam > 1 - precision then (-1, s)
    else
      match lookupEdge s.intersections (lo i j, hi i j) with
      | some m => (m, s)
      | none =>
        ((s.positions.length : ℤ),
         { s with positions := s.positions ++ [interp lam p q],
                  intersections := ((lo i j, hi i j), (s.positions.length : ℤ)) :: s.intersections })

/-- The edge loop of `do_triangle`, tried for `n = 0, 1, 2`: read
`i = t[n]`, `j = t[(n+1)%3]`, `k = t[(n+2)%3]`, query the edge `[jk]`, and
on the first hit append `(i, j, m)` and rewrite slot `tid` to `(i, m, k)`
(the source pushes the new triangle before overwriting the slot). -/
def do_tri_go : Slicer → ℕ → List ℕ → Bool × Slicer
  | s, _, [] => (false, s)
  | s, tid, n :: rest =>
    let t := getTri s.triangles tid
    let i := t.get n
    let j := t.get (n + 1)
    let k := t.get (n + 2)
    let r := get_intersection s j k
    if r.1 = -1 then
      do_tri_go r.2 tid rest
    else
      (true, { r.2 with
                 triangles := (r.2.triangles ++ [(⟨i, j, r.1⟩ : Tri)]).set tid ⟨i, r.1, k⟩ })

/-- `do_triangle`: split triangle `tid` on its first crossing edge and
return `true`; otherwise leave the state unchanged and return `false`. -/
def do_triangle (s : Slicer) (tid : ℕ) : Bool × Slicer :=
  do_tri_go s tid [0, 1, 2]

/-- The cutting loop
`for (tid = 0; tid < triangles.size(); tid += !do_triangle(tid));`
run with explicit fuel: `none` means the fuel ran out with the loop still
running. -/
def cutLoop : ℕ → Slicer → ℕ → Option Slicer
  | 0, s, tid => if tid < s.triangles.length then none else some s
  | f + 1, s, tid =>
    if tid < s.triangles.length then
      let r := do_triangle s tid
      cutLoop f r.2 (if r.1 then tid else tid + 1)
    else some s

/-- `cut`: clear the intersection cache, return immediately when the plane
origin is the zero vector, otherwise run the triangle loop.  The fuel
`7 * triangles.length + 1` is proved sufficient below whenever the
triangle indices are valid. -/
def cut (s : Slicer) : Option Slicer :=
  let s1 : Slicer := { s with intersections := [] }
  if s1.origin = ⟨0, 0, 0⟩ then some s1
  else cutLoop (7 * s1.triangles.length + 1) s1 0

/-! Derived geometric notions used to state and prove the claims. -/

/-- Dot product on `Vec3`. -/
def dot (u v : Vec3) : ℚ := u.x * v.x + u.y * v.y + u.z * v.z

/-- Componentwise difference on `Vec3`. -/
def vsub (u v : Vec3) : Vec3 := ⟨u.x - v.x, u.y - v.y, u.z - v.z⟩

/-- The signed side value of vertex index `v` with respect to the
slicer's plane: `dot (position - origin) normal`; zero means on the
plane. -/
def side (s : Slicer) (v : ℤ) : ℚ :=
  dot (vsub (getPos s.positions v) s.origin) s.normal

/-- The lambda value `get_intersection` computes for the (canonicalised)
edge between indices `i` and `j`. -/
def lambdaOf (s : Slicer) (i j : ℤ) : Option ℚ :=
  get_lambda s.origin s.normal (getPos s.positions (lo i j)) (getPos s.positions (hi i j))

/-- The crossing test of `get_intersection`, as a Boolean predicate of the
state and an (unordered) edge: lambda is finite and within the closed
tolerance interval. -/
def crossesB (s : Slicer) (i j : ℤ) : Bool :=
  match lambdaOf s i j with
  | none => false
  | some lam => decide (precision ≤ lam ∧ lam ≤ 1 - precision)

/-- Number of crossing edges of one triangle. -/
def incTri (s : Slicer) (t : Tri) : ℕ :=
  (if crossesB s t.a t.b then 1 else 0)
  + (if crossesB s t.b t.c then 1 else 0)
  + (if crossesB s t.c t.a then 1 else 0)

/-- Total number of (triangle, crossing edge) incidences of the state: the
termination measure of the cutting loop. -/
def inc (s : Slicer) : ℕ :=
  (s.triangles.map (incTri s)).sum

/-- The canonicalised (small, large) edge key used by the intersection
cache. -/
def edgeKey (i j : ℤ) : ℤ × ℤ :=
  (lo i j, hi i j)

/-- The list of unique (canonicalised, deduplicated) edges of a triangle
list. -/
def uniqueEdges (ts : List Tri) : List (ℤ × ℤ) :=
  (ts.flatMap (fun t => [edgeKey t.a t.b, edgeKey t.b t.c, edgeKey t.c t.a])).dedup

/-- An `int` vertex index is valid for the current vertex sequence. -/
def validIdx (s : Slicer) (v : ℤ) : Prop :=
  0 ≤ v ∧ v < (s.positions.length : ℤ)

/-- Every triangle's three indices are valid indices into the vertex
sequence (the mesh invariant of the spec). -/
def TrianglesValid (s : Slicer) : Prop :=
  ∀ t ∈ s.triangles, validIdx s t.a ∧ validIdx s t.b ∧ validIdx s t.c

/-- Every cache entry stores a valid vertex index whose position lies
exactly on the cutting plane. -/
def CacheOK (s : Slicer) : Prop :=
  ∀ kv ∈ s.intersections, validIdx s kv.2 ∧ side s kv.2 = 0

/-- The loop invariant of `cut`: valid triangles and a healthy cache. -/
def Inv (s : Slicer) : Prop :=
  TrianglesValid s ∧ CacheOK s

instance (s : Slicer) (v : ℤ) : Decidable (validIdx s v) := by
  unfold validIdx; infer_instance

instance (s : Slicer) : Decidable (TrianglesValid s) := by
  unfold TrianglesValid; infer_instance

instance (s : Slicer) : Decidable (CacheOK s) := by
  unfold CacheOK; infer_instance

instance (s : Slicer) : Decidable (Inv s) := by
  unfold Inv; infer_instance

/-! Basic lemmas about the building blocks. -/

theorem Tri.get_zero (t : Tri) : t.get 0 = t.a := rfl

theorem Tri.get_one (t : Tri) : t.get 1 = t.b := rfl

theorem Tri.get_two (t : Tri) : t.get 2 = t.c := rfl

theorem Tri.get_three (t : Tri) : t.get 3 = t.a := rfl

theorem Tri.get_four (t : Tri) : t.get 4 = t.b := rfl

theorem lo_comm (i j : ℤ) : lo i j = lo j i := by
  unfold lo; split <;> split <;> omega

theorem hi_comm (i j : ℤ) : hi i j = hi j i := by
  unfold hi; split <;> split <;> omega

theorem lo_hi_cases (i j : ℤ) :
    (lo i j = i ∧ hi i j = j) ∨ (lo i j = j ∧ hi i j = i) := by
  unfold lo hi; split <;> simp

theorem lookupEdge_mem {l : List ((ℤ × ℤ) × ℤ)} {k : ℤ × ℤ} {m : ℤ}
    (h : lookupEdge l k = some m) : (k, m) ∈ l := by
  induction l with
  | nil => simp [lookupEdge] at h
  | cons kv rest ih =>
    unfold lookupEdge at h
    by_cases hk : kv.1 = k
    · rw [if_pos hk] at h
      obtain ⟨k1, v1⟩ := kv
      obtain rfl : k1 = k := hk
      obtain rfl : v1 = m := Option.some.inj h
      exact List.mem_cons_self _ _
    · rw [if_neg hk] at h
      exact List.mem_cons_of_mem _ (ih h)

/-- `get_intersection` rephrased through `lambdaOf` and `edgeKey`; holds
definitionally. -/
theorem get_intersection_def (s : Slicer) (i j : ℤ) :
    get_intersection s i j =
      match lambdaOf s i j with
      | none => (-1, s)
      | some lam =>
        if lam < precision ∨ lam > 1 - precision then (-1, s)
        else
          match lookupEdge s.intersections (edgeKey i j) with
          | some m => (m, s)
          | none =>
            ((s.positions.length : ℤ),
             { s with
                 positions := s.positions ++
                   [interp lam (getPos s.positions (lo i j)) (getPos s.positions (hi i j))],
                 intersections :=
                   (edgeKey i j, (s.positions.length : ℤ)) :: s.intersections }) := rfl

theorem crossesB_true_iff (s : Slicer) (i j : ℤ) :
    crossesB s i j = true ↔
      ∃ lam, lambdaOf s i j = some lam ∧ precision ≤ lam ∧ lam ≤ 1 - precision := by
  unfold crossesB
  cases hl : lambdaOf s i j with
  | none => simp
  | some lam => simp

theorem gi_not_cross {s : Slicer} {i j : ℤ} (h : crossesB s i j = false) :
    get_intersection s i j = (-1, s) := by
  rw [get_intersection_def]
  unfold crossesB at h
  cases hl : lambdaOf s i j with
  | none => simp only [hl]
  | some lam =>
    simp only [hl, decide_eq_false_iff_not, not_and_or, not_le] at h
    simp only [hl]
    rw [if_pos h]

theorem gi_cached {s : Slicer} {i j : ℤ} {m : ℤ} (h : crossesB s i j = true)
    (hm : lookupEdge s.intersections (edgeKey i j) = some m) :
    get_intersection s i j = (m, s) := by
  rcases (crossesB_true_iff s i j).mp h with ⟨lam, hl, h1, h2⟩
  rw [get_intersection_def]
  simp only [hl, hm]
  rw [if_neg (by rw [not_or]; exact ⟨not_lt.mpr h1, not_lt.mpr h2⟩)]

theorem gi_fresh {s : Slicer} {i j : ℤ} {lam : ℚ} (hl : lambdaOf s i j = some lam)
    (h1 : precision ≤ lam) (h2 : lam ≤ 1 - precision)
    (hm : lookupEdge s.intersections (edgeKey i j) = none) :
    get_intersection s i j =
      ((s.positions.length : ℤ),
       { s with
           positions := s.positions ++
             [interp lam (getPos s.positions (lo i j)) (getPos s.positions (hi i j))],
           intersections := (edgeKey i j, (s.positions.length : ℤ)) :: s.intersections }) := by
  rw [get_intersection_def]
  simp only [hl, hm]
  rw [if_neg (by rw [not_or]; exact ⟨not_lt.mpr h1, not_lt.mpr h2⟩)]

/-- The three mutually exclusive outcomes of `get_intersection`. -/
theorem gi_cases (s : Slicer) (i j : ℤ) :
    (crossesB s i j = false ∧ get_intersection s i j = (-1, s))
    ∨ (∃ m, crossesB s i j = true
        ∧ lookupEdge s.intersections (edgeKey i j) = some m
        ∧ get_intersection s i j = (m, s))
    ∨ (∃ lam, lambdaOf s i j = some lam ∧ precision ≤ lam ∧ lam ≤ 1 - precision
        ∧ lookupEdge s.intersections (edgeKey i j) = none
        ∧ get_intersection s i j =
          ((s.positions.length : ℤ),
           { s with
               positions := s.positions ++
                 [interp lam (getPos s.positions (lo i j)) (getPos s.positions (hi i j))],
               intersections :=
                 (edgeKey i j, (s.positions.length : ℤ)) :: s.intersections })) := by
  cases hc : crossesB s i j with
  | false => exact Or.inl ⟨rfl, gi_not_cross hc⟩
  | true =>
    rcases (crossesB_true_iff s i j).mp hc with ⟨lam, hl, h1, h2⟩
    cases hm : lookupEdge s.intersections (edgeKey i j) with
    | some m => exact Or.inr (Or.inl ⟨m, rfl, rfl, gi_cached hc hm⟩)
    | none => exact Or.inr (Or.inr ⟨lam, hl, h1, h2, rfl, gi_fresh hl h1 h2 hm⟩)

/-- When `get_intersection` reports no intersection, the state is
untouched. -/
theorem gi_unchanged_of_neg {s : Slicer} {i j : ℤ}
    (h : (get_intersection s i j).1 = -1) : (get_intersection s i j).2 = s := by
  rcases gi_cases s i j with ⟨_, he⟩ | ⟨m, _, _, he⟩ | ⟨lam, _, _, _, _, he⟩
  · rw [he]
  · rw [he]
  · exfalso
    rw [he] at h
    have h2 : ((s.positions.length : ℤ)) = -1 := h
    omega

/-! Geometric lemmas: side values and the crossing test. -/

/-- The signed side value of a point `v` with respect to the plane
`(o, n)`. -/
def sideV (o n v : Vec3) : ℚ := dot (vsub v o) n

theorem side_eq_sideV (s : Slicer) (v : ℤ) :
    side s v = sideV s.origin s.normal (getPos s.positions v) := rfl

theorem get_lambda_eq (o n p q : Vec3) :
    get_lambda o n p q =
      if sideV o n p - sideV o n q = 0 then none
      else some (-sideV o n q / (sideV o n p - sideV o n q)) := by
  have hnum : (o.x - q.x) * n.x + (o.y - q.y) * n.y + (o.z - q.z) * n.z
      = -sideV o n q := by
    unfold sideV dot vsub; ring
  have hden : (p.x - q.x) * n.x + (p.y - q.y) * n.y + (p.z - q.z) * n.z
      = sideV o n p - sideV o n q := by
    unfold sideV dot vsub; ring
  unfold get_lambda
  rw [hnum, hden]

theorem precision_pos : 0 < precision := by norm_num [precision]

theorem precision_lt_one : precision < 1 := by norm_num [precision]

/-- Decomposition of a computed lambda: the denominator is nonzero and the
two side values are `(1-lam)` resp. `-lam` times it. -/
theorem lambdaOf_spec {s : Slicer} {i j : ℤ} {lam : ℚ}
    (h : lambdaOf s i j = some lam) :
    side s (lo i j) - side s (hi i j) ≠ 0
    ∧ side s (lo i j) = (1 - lam) * (side s (lo i j) - side s (hi i j))
    ∧ side s (hi i j) = -lam * (side s (lo i j) - side s (hi i j)) := by
  unfold lambdaOf at h
  rw [get_lambda_eq] at h
  by_cases hden :
      sideV s.origin s.normal (getPos s.positions (lo i j))
        - sideV s.origin s.normal (getPos s.positions (hi i j)) = 0
  · rw [if_pos hden] at h; cases h
  · rw [if_neg hden] at h
    obtain rfl : lam =
        -sideV s.origin s.normal (getPos s.positions (hi i j))
          / (sideV s.origin s.normal (getPos s.positions (lo i j))
              - sideV s.origin s.normal (getPos s.positions (hi i j))) :=
      (Option.some.inj h).symm
    rw [side_eq_sideV, side_eq_sideV]
    refine ⟨hden, ?_, ?_⟩
    · field_simp
    · field_simp

theorem lambdaOf_none_iff {s : Slicer} {i j : ℤ} :
    lambdaOf s i j = none ↔ side s (lo i j) = side s (hi i j) := by
  rw [side_eq_sideV, side_eq_sideV]
  unfold lambdaOf
  rw [get_lambda_eq]
  by_cases hden :
      sideV s.origin s.normal (getPos s.positions (lo i j))
        - sideV s.origin s.normal (getPos s.positions (hi i j)) = 0
  · rw [if_pos hden]
    exact ⟨fun _ => by linarith, fun _ => rfl⟩
  · rw [if_neg hden]
    exact ⟨fun h => absurd h (Option.some_ne_none _),
           fun h => absurd (by linarith) hden⟩

/-- An edge with an endpoint exactly on the plane never passes the
crossing test. -/
theorem crossesB_false_of_side_zero {s : Slicer} {i j : ℤ}
    (h : side s i = 0 ∨ side s j = 0) : crossesB s i j = false := by
  have hlohi : side s (lo i j) = 0 ∨ side s (hi i j) = 0 := by
    rcases lo_hi_cases i j with ⟨h1, h2⟩ | ⟨h1, h2⟩ <;> rw [h1, h2] <;> tauto
  unfold crossesB
  cases hl : lambdaOf s i j with
  | none => rfl
  | some lam =>
    obtain ⟨hden, hlo2, hhi2⟩ := lambdaOf_spec hl
    simp only [decide_eq_false_iff_not, not_and_or, not_le]
    rcases hlohi with h0 | h0
    · right
      have hlam1 : lam = 1 := by
        rw [h0] at hlo2 hden
        rcases mul_eq_zero.mp hlo2.symm with h1 | h1
        · linarith
        · exact absurd h1 hden
      rw [hlam1]
      linarith [precision_pos]
    · left
      have hlam0 : lam = 0 := by
        rw [h0] at hhi2 hden
        rcases mul_eq_zero.mp hhi2.symm with h1 | h1
        · linarith
        · exact absurd h1 hden
      rw [hlam0]
      exact precision_pos

/-- A crossing edge has its endpoints strictly on opposite sides of the
plane. -/
theorem side_mul_neg_of_crossesB {s : Slicer} {i j : ℤ}
    (h : crossesB s i j = true) : side s i * side s j < 0 := by
  rcases (crossesB_true_iff s i j).mp h with ⟨lam, hl, h1, h2⟩
  obtain ⟨hden, hlo, hhi⟩ := lambdaOf_spec hl
  have hl0 : 0 < lam := lt_of_lt_of_le precision_pos h1
  have hl1 : lam < 1 := lt_of_le_of_lt h2 (by linarith [precision_pos])
  set D := side s (lo i j) - side s (hi i j) with hD
  have hsq : 0 < D ^ 2 :=
    lt_of_le_of_ne (sq_nonneg _) (Ne.symm (pow_ne_zero 2 hden))
  have hmul : side s (lo i j) * side s (hi i j) = -(lam * (1 - lam)) * D ^ 2 := by
    rw [hlo, hhi]; ring
  have hprod : side s (lo i j) * side s (hi i j) < 0 := by
    rw [hmul]
    have hpos : 0 < lam * (1 - lam) := mul_pos hl0 (by linarith)
    nlinarith [hsq, hpos]
  rcases lo_hi_cases i j with ⟨ha, hb⟩ | ⟨ha, hb⟩
  · rw [ha, hb] at hprod; exact hprod
  · rw [ha, hb] at hprod; rw [mul_comm]; exact hprod

/-- Each triangle has at most two crossing edges. -/
theorem incTri_le_two (s : Slicer) (t : Tri) : incTri s t ≤ 2 := by
  have key : ¬(crossesB s t.a t.b = true ∧ crossesB s t.b t.c = true
      ∧ crossesB s t.c t.a = true) := by
    rintro ⟨hab, hbc, hca⟩
    have h1 := side_mul_neg_of_crossesB hab
    have h2 := side_mul_neg_of_crossesB hbc
    have h3 := side_mul_neg_of_crossesB hca
    nlinarith [mul_pos_of_neg_of_neg h1 h2, h3,
      sq_nonneg (side s t.a * side s t.b * side s t.c)]
  unfold incTri
  split <;> split <;> split <;> simp_all

/-- The interpolated point has an affine side value. -/
theorem sideV_interp (o n p q : Vec3) (lam : ℚ) :
    sideV o n (interp lam p q) = lam * sideV o n p + (1 - lam) * sideV o n q := by
  unfold sideV interp dot vsub; ring

/-- The freshly interpolated split vertex lies exactly on the plane. -/
theorem side_fresh {s : Slicer} {i j : ℤ} {lam : ℚ}
    (hl : lambdaOf s i j = some lam) :
    sideV s.origin s.normal
      (interp lam (getPos s.positions (lo i j)) (getPos s.positions (hi i j))) = 0 := by
  obtain ⟨hden, hlo, hhi⟩ := lambdaOf_spec hl
  rw [sideV_interp]
  have e1 : sideV s.origin s.normal (getPos s.positions (lo i j)) = side s (lo i j) := rfl
  have e2 : sideV s.origin s.normal (getPos s.positions (hi i j)) = side s (hi i j) := rfl
  rw [e1, e2]
  linear_combination lam * hlo + (1 - lam) * hhi

/-! Stability of reads under appending vertices. -/

theorem getPos_append {l l2 : List Vec3} {i : ℤ}
    (h0 : 0 ≤ i) (h : i < (l.length : ℤ)) :
    getPos (l ++ l2) i = getPos l i := by
  unfold getPos
  rw [if_pos h0, if_pos h0]
  exact List.getD_append _ _ _ _ (by omega)

theorem getPos_append_last (l : List Vec3) (v : Vec3) :
    getPos (l ++ [v]) (l.length : ℤ) = v := by
  unfold getPos
  rw [if_pos (Int.natCast_nonneg _)]
  rw [Int.toNat_natCast]
  rw [List.getD_eq_getElem?_getD, List.getElem?_append_right (le_refl _)]
  simp

theorem side_congr {s s2 : Slicer} {v : ℤ}
    (ho : s2.origin = s.origin) (hn : s2.normal = s.normal)
    (hp : ∃ l, s2.positions = s.positions ++ l)
    (h0 : 0 ≤ v) (hv : v < (s.positions.length : ℤ)) :
    side s2 v = side s v := by
  obtain ⟨l, hl⟩ := hp
  unfold side
  rw [ho, hn, hl, getPos_append h0 hv]

theorem lambdaOf_congr {s s2 : Slicer} {i j : ℤ}
    (ho : s2.origin = s.origin) (hn : s2.normal = s.normal)
    (hp : ∃ l, s2.positions = s.positions ++ l)
    (hiv : 0 ≤ i ∧ i < (s.positions.length : ℤ))
    (hjv : 0 ≤ j ∧ j < (s.positions.length : ℤ)) :
    lambdaOf s2 i j = lambdaOf s i j := by
  obtain ⟨l, hl⟩ := hp
  have hlov : 0 ≤ lo i j ∧ lo i j < (s.positions.length : ℤ) := by
    rcases lo_hi_cases i j with ⟨h1, _⟩ | ⟨h1, _⟩ <;> rw [h1] <;> tauto
  have hhiv : 0 ≤ hi i j ∧ hi i j < (s.positions.length : ℤ) := by
    rcases lo_hi_cases i j with ⟨_, h2⟩ | ⟨_, h2⟩ <;> rw [h2] <;> tauto
  unfold lambdaOf
  rw [ho, hn, hl, getPos_append hlov.1 hlov.2, getPos_append hhiv.1 hhiv.2]

theorem crossesB_congr {s s2 : Slicer} {i j : ℤ}
    (ho : s2.origin = s.origin) (hn : s2.normal = s.normal)
    (hp : ∃ l, s2.positions = s.positions ++ l)
    (hiv : 0 ≤ i ∧ i < (s.positions.length : ℤ))
    (hjv : 0 ≤ j ∧ j < (s.positions.length : ℤ)) :
    crossesB s2 i j = crossesB s i j := by
  unfold crossesB
  rw [lambdaOf_congr ho hn hp hiv hjv]

/-! Structural facts about `get_intersection`. -/

/-- `get_intersection` never touches triangles or the plane, and appends
at most one vertex. -/
theorem gi_state (s : Slicer) (i j : ℤ) :
    (get_intersection s i j).2.triangles = s.triangles
    ∧ (get_intersection s i j).2.origin = s.origin
    ∧ (get_intersection s i j).2.normal = s.normal
    ∧ ∃ l, (get_intersection s i j).2.positions = s.positions ++ l ∧ l.length ≤ 1 := by
  rcases gi_cases s i j with ⟨_, he⟩ | ⟨m, _, _, he⟩ | ⟨lam, _, _, _, _, he⟩ <;> rw [he]
  · exact ⟨rfl, rfl, rfl, [], by simp, by simp⟩
  · exact ⟨rfl, rfl, rfl, [], by simp, by simp⟩
  · exact ⟨rfl, rfl, rfl, [_], rfl, le_refl 1⟩

theorem validIdx_mono {s s2 : Slicer} {v : ℤ}
    (hp : ∃ l, s2.positions = s.positions ++ l) (h : validIdx s v) :
    validIdx s2 v := by
  obtain ⟨l, hl⟩ := hp
  obtain ⟨h0, h1⟩ := h
  refine ⟨h0, ?_⟩
  rw [hl]
  simp only [List.length_append]
  omega

/-- `get_intersection` preserves triangle-index validity. -/
theorem gi_trianglesValid {s : Slicer} (i j : ℤ) (hT : TrianglesValid s) :
    TrianglesValid (get_intersection s i j).2 := by
  obtain ⟨ht, _, _, hp⟩ := gi_state s i j
  intro t hmem
  rw [ht] at hmem
  obtain ⟨ha, hb, hc⟩ := hT t hmem
  exact ⟨validIdx_mono ⟨hp.choose, hp.choose_spec.1⟩ ha,
         validIdx_mono ⟨hp.choose, hp.choose_spec.1⟩ hb,
         validIdx_mono ⟨hp.choose, hp.choose_spec.1⟩ hc⟩

/-- `get_intersection` preserves the cache invariant. -/
theorem gi_cacheOK {s : Slicer} (i j : ℤ) (hC : CacheOK s) :
    CacheOK (get_intersection s i j).2 := by
  rcases gi_cases s i j with ⟨_, he⟩ | ⟨m, _, _, he⟩ | ⟨lam, hl, _, _, _, he⟩ <;> rw [he]
  · exact hC
  · exact hC
  · intro kv hmem
    rcases List.mem_cons.mp hmem with hkv | hkv
    · subst hkv
      refine ⟨⟨Int.natCast_nonneg _, by simp⟩, ?_⟩
      show sideV s.origin s.normal
        (getPos (s.positions ++ [_]) (s.positions.length : ℤ)) = 0
      rw [getPos_append_last]
      exact side_fresh hl
    · obtain ⟨⟨h0, h1⟩, hside⟩ := hC kv hkv
      refine ⟨⟨h0, by simp only [List.length_append]; omega⟩, ?_⟩
      show sideV s.origin s.normal (getPos (s.positions ++ [_]) kv.2) = 0
      rw [getPos_append h0 h1]
      exact hside

/-- Whenever the cache is healthy, a non-`-1` result is exactly a passed
crossing test. -/
theorem gi_fst_neg_iff {s : Slicer} {i j : ℤ} (hC : CacheOK s) :
    (get_intersection s i j).1 = -1 ↔ crossesB s i j = false := by
  rcases gi_cases s i j with ⟨hc, he⟩ | ⟨m, hc, hm, he⟩ | ⟨lam, hl, h1, h2, hm, he⟩ <;>
    rw [he]
  · simp [hc]
  · simp only [hc]
    constructor
    · intro hmm
      exfalso
      have := (hC _ (lookupEdge_mem hm)).1.1
      simp only at hmm
      omega
    · intro hff; cases hff
  · constructor
    · intro hmm
      exfalso
      have h0 : (0 : ℤ) ≤ (s.positions.length : ℤ) := Int.natCast_nonneg _
      simp only at hmm
      omega
    · intro hff
      rw [(crossesB_true_iff s i j).mpr ⟨lam, hl, h1, h2⟩] at hff
      cases hff

/-! Structural facts about `do_triangle`. -/

/-- The state after splitting triangle `tid` (with vertex triple `t`) on
edge `n`. -/
def splitAt (s : Slicer) (tid : ℕ) (t : Tri) (n : ℕ) : Slicer :=
  { (get_intersection s (t.get (n + 1)) (t.get (n + 2))).2 with
      triangles :=
        ((get_intersection s (t.get (n + 1)) (t.get (n + 2))).2.triangles
          ++ [(⟨t.get n, t.get (n + 1),
                (get_intersection s (t.get (n + 1)) (t.get (n + 2))).1⟩ : Tri)]).set
          tid ⟨t.get n, (get_intersection s (t.get (n + 1)) (t.get (n + 2))).1,
                t.get (n + 2)⟩ }

theorem do_tri_go_nil (s : Slicer) (tid : ℕ) : do_tri_go s tid [] = (false, s) := rfl

theorem do_tri_go_cons (s : Slicer) (tid n : ℕ) (rest : List ℕ) :
    do_tri_go s tid (n :: rest) =
      if (get_intersection s ((getTri s.triangles tid).get (n + 1))
            ((getTri s.triangles tid).get (n + 2))).1 = -1
      then do_tri_go (get_intersection s ((getTri s.triangles tid).get (n + 1))
            ((getTri s.triangles tid).get (n + 2))).2 tid rest
      else (true, splitAt s tid (getTri s.triangles tid) n) := rfl

theorem do_tri_go_neg_step {s : Slicer} {tid n : ℕ} {rest : List ℕ}
    (h : (get_intersection s ((getTri s.triangles tid).get (n + 1))
          ((getTri s.triangles tid).get (n + 2))).1 = -1) :
    do_tri_go s tid (n :: rest) = do_tri_go s tid rest := by
  rw [do_tri_go_cons, if_pos h, gi_unchanged_of_neg h]

/-- Complete case analysis of one `do_triangle` visit: either no edge
crosses and the state is untouched, or the first crossing edge `n` is
split and the loop will report `true`. -/
theorem do_triangle_view (s : Slicer) (tid : ℕ) :
    (do_triangle s tid = (false, s)
      ∧ ∀ n < 3, (get_intersection s ((getTri s.triangles tid).get (n + 1))
          ((getTri s.triangles tid).get (n + 2))).1 = -1)
    ∨ ∃ n < 3,
        (∀ n2 < n, (get_intersection s ((getTri s.triangles tid).get (n2 + 1))
            ((getTri s.triangles tid).get (n2 + 2))).1 = -1)
        ∧ (get_intersection s ((getTri s.triangles tid).get (n + 1))
            ((getTri s.triangles tid).get (n + 2))).1 ≠ -1
        ∧ do_triangle s tid = (true, splitAt s tid (getTri s.triangles tid) n) := by
  by_cases h0 : (get_intersection s ((getTri s.triangles tid).get 1)
      ((getTri s.triangles tid).get 2)).1 = -1
  · by_cases h1 : (get_intersection s ((getTri s.triangles tid).get 2)
        ((getTri s.triangles tid).get 3)).1 = -1
    · by_cases h2 : (get_intersection s ((getTri s.triangles tid).get 3)
          ((getTri s.triangles tid).get 4)).1 = -1
      · left
        constructor
        · show do_tri_go s tid [0, 1, 2] = (false, s)
          rw [do_tri_go_neg_step h0, do_tri_go_neg_step h1, do_tri_go_neg_step h2,
            do_tri_go_nil]
        · intro n hn
          interval_cases n
          · exact h0
          · exact h1
          · exact h2
      · right
        refine ⟨2, by omega, ?_, h2, ?_⟩
        · intro n2 hn2
          interval_cases n2
          · exact h0
          · exact h1
        · show do_tri_go s tid [0, 1, 2] = _
          rw [do_tri_go_neg_step h0, do_tri_go_neg_step h1, do_tri_go_cons, if_neg h2]
    · right
      refine ⟨1, by omega, ?_, h1, ?_⟩
      · intro n2 hn2
        interval_cases n2
        exact h0
      · show do_tri_go s tid [0, 1, 2] = _
        rw [do_tri_go_neg_step h0, do_tri_go_cons, if_neg h1]
  · right
    refine ⟨0, by omega, ?_, h0, ?_⟩
    · intro n2 hn2
      omega
    · show do_tri_go s tid [0, 1, 2] = _
      rw [do_tri_go_cons, if_neg h0]

/-! Pieces for the preservation and termination arguments. -/

theorem lo_self (v : ℤ) : lo v v = v := by unfold lo; split <;> rfl

theorem hi_self (v : ℤ) : hi v v = v := by unfold hi; split <;> rfl

theorem crossesB_self (s : Slicer) (v : ℤ) : crossesB s v v = false := by
  unfold crossesB
  rw [lambdaOf_none_iff.mpr (by rw [lo_self, hi_self])]

theorem crossesB_comm (s : Slicer) (i j : ℤ) : crossesB s i j = crossesB s j i := by
  unfold crossesB lambdaOf
  rw [lo_comm, hi_comm]

theorem Tri.get_default (n : ℕ) : (⟨0, 0, 0⟩ : Tri).get n = 0 := by
  unfold Tri.get; split <;> rfl

theorem getTri_mem {l : List Tri} {tid : ℕ} (h : tid < l.length) : getTri l tid ∈ l := by
  unfold getTri
  rw [List.getD_eq_getElem l _ h]
  exact List.getElem_mem h

theorem getTri_default {l : List Tri} {tid : ℕ} (h : l.length ≤ tid) :
    getTri l tid = ⟨0, 0, 0⟩ := by
  unfold getTri
  exact List.getD_eq_default _ _ h

theorem Tri.get_valid {s : Slicer} {t : Tri}
    (h : validIdx s t.a ∧ validIdx s t.b ∧ validIdx s t.c) (n : ℕ) :
    validIdx s (t.get n) := by
  unfold Tri.get; split <;> tauto

/-- Replacing one list element, accounted additively over a mapped sum. -/
theorem sum_map_set {α : Type} (g : α → ℕ) (l : List α) (i : ℕ) (b d : α)
    (h : i < l.length) :
    ((l.set i b).map g).sum + g (l.getD i d) = (l.map g).sum + g b := by
  induction l generalizing i with
  | nil => simp at h
  | cons x xs ih =>
    cases i with
    | zero => simp [List.set]; omega
    | succ m =>
      simp only [List.set, List.map_cons, List.sum_cons, List.getD_cons_succ]
      have := ih m (by simpa using h)
      omega

theorem incTri_congr {s s2 : Slicer} {t : Tri}
    (ho : s2.origin = s.origin) (hn : s2.normal = s.normal)
    (hp : ∃ l, s2.positions = s.positions ++ l)
    (hv : validIdx s t.a ∧ validIdx s t.b ∧ validIdx s t.c) :
    incTri s2 t = incTri s t := by
  obtain ⟨⟨ha0, ha1⟩, ⟨hb0, hb1⟩, ⟨hc0, hc1⟩⟩ := hv
  unfold incTri
  rw [crossesB_congr ho hn hp ⟨ha0, ha1⟩ ⟨hb0, hb1⟩,
      crossesB_congr ho hn hp ⟨hb0, hb1⟩ ⟨hc0, hc1⟩,
      crossesB_congr ho hn hp ⟨hc0, hc1⟩ ⟨ha0, ha1⟩]

theorem inc_list_congr {s s2 : Slicer} {ts : List Tri}
    (ho : s2.origin = s.origin) (hn : s2.normal = s.normal)
    (hp : ∃ l, s2.positions = s.positions ++ l)
    (hv : ∀ t ∈ ts, validIdx s t.a ∧ validIdx s t.b ∧ validIdx s t.c) :
    (ts.map (incTri s2)).sum = (ts.map (incTri s)).sum := by
  have : ts.map (incTri s2) = ts.map (incTri s) :=
    List.map_congr_left (fun t ht => incTri_congr ho hn hp (hv t ht))
  rw [this]

/-- A triangle whose last vertex is on the plane crosses only on its first
edge. -/
theorem incTri_last_on_plane {s : Slicer} {x y m : ℤ} (hm : side s m = 0) :
    incTri s ⟨x, y, m⟩ = if crossesB s x y then 1 else 0 := by
  unfold incTri
  rw [crossesB_false_of_side_zero (Or.inr hm),
      crossesB_false_of_side_zero (Or.inl hm)]
  simp

/-- A triangle whose middle vertex is on the plane crosses only on its
closing edge. -/
theorem incTri_mid_on_plane {s : Slicer} {x m y : ℤ} (hm : side s m = 0) :
    incTri s ⟨x, m, y⟩ = if crossesB s y x then 1 else 0 := by
  unfold incTri
  rw [crossesB_false_of_side_zero (Or.inr hm),
      crossesB_false_of_side_zero (Or.inl hm)]
  simp

/-- A non-`-1` result of `get_intersection` is a valid vertex index lying
exactly on the plane (in the post-call state). -/
theorem gi_result_valid {s : Slicer} {i j : ℤ} (hC : CacheOK s)
    (h : (get_intersection s i j).1 ≠ -1) :
    validIdx (get_intersection s i j).2 (get_intersection s i j).1
    ∧ side (get_intersection s i j).2 (get_intersection s i j).1 = 0 := by
  rcases gi_cases s i j with ⟨_, he⟩ | ⟨m, _, hm, he⟩ | ⟨lam, hl, _, _, _, he⟩ <;> rw [he]
  · rw [he] at h; exact absurd rfl h
  · exact hC _ (lookupEdge_mem hm)
  · constructor
    · exact ⟨Int.natCast_nonneg _, by simp⟩
    · show sideV s.origin s.normal
        (getPos (s.positions ++ [_]) (s.positions.length : ℤ)) = 0
      rw [getPos_append_last]
      exact side_fresh hl

/-- A split can only happen at a genuine triangle slot. -/
theorem split_tid_lt {s : Slicer} {tid n : ℕ}
    (h : (get_intersection s ((getTri s.triangles tid).get (n + 1))
          ((getTri s.triangles tid).get (n + 2))).1 ≠ -1) :
    tid < s.triangles.length := by
  by_contra hge
  rw [getTri_default (by omega)] at h
  rw [Tri.get_default, Tri.get_default] at h
  exact h (by rw [gi_not_cross (crossesB_self s 0)])

/-- Everything a split step guarantees: the invariant survives, the plane
is untouched, the vertex sequence only grows, the triangle count goes up
by exactly one, and the crossing-incidence measure strictly drops. -/
theorem split_facts {s : Slicer} {tid n : ℕ} (hInv : Inv s) (hn3 : n < 3)
    (hneg : (get_intersection s ((getTri s.triangles tid).get (n + 1))
        ((getTri s.triangles tid).get (n + 2))).1 ≠ -1) :
    Inv (splitAt s tid (getTri s.triangles tid) n)
    ∧ (splitAt s tid (getTri s.triangles tid) n).origin = s.origin
    ∧ (splitAt s tid (getTri s.triangles tid) n).normal = s.normal
    ∧ (∃ l, (splitAt s tid (getTri s.triangles tid) n).positions = s.positions ++ l)
    ∧ (splitAt s tid (getTri s.triangles tid) n).triangles.length
        = s.triangles.length + 1
    ∧ inc (splitAt s tid (getTri s.triangles tid) n) + 1 ≤ inc s := by
  obtain ⟨hT, hC⟩ := hInv
  have tidlt : tid < s.triangles.length := split_tid_lt hneg
  have tmem : getTri s.triangles tid ∈ s.triangles := getTri_mem tidlt
  have tvalid := hT _ tmem
  obtain ⟨rval, rside⟩ := gi_result_valid hC hneg
  obtain ⟨rtri, ror, rnor, l0, rpos, rlen⟩ :=
    gi_state s ((getTri s.triangles tid).get (n + 1))
      ((getTri s.triangles tid).get (n + 2))
  have hcross : crossesB s ((getTri s.triangles tid).get (n + 1))
      ((getTri s.triangles tid).get (n + 2)) = true := by
    cases hcb : crossesB s ((getTri s.triangles tid).get (n + 1))
        ((getTri s.triangles tid).get (n + 2)) with
    | false => exact absurd ((gi_fst_neg_iff hC).mpr hcb) hneg
    | true => rfl
  have hCr : CacheOK (get_intersection s ((getTri s.triangles tid).get (n + 1))
      ((getTri s.triangles tid).get (n + 2))).2 := gi_cacheOK _ _ hC
  unfold splitAt
  set t := getTri s.triangles tid with ht
  set r := get_intersection s (t.get (n + 1)) (t.get (n + 2)) with hr
  set A : Tri := ⟨t.get n, t.get (n + 1), r.1⟩ with hA
  set B : Tri := ⟨t.get n, r.1, t.get (n + 2)⟩ with hB
  set s2 : Slicer := { r.2 with triangles := (r.2.triangles ++ [A]).set tid B } with hs2
  have s2pos : s2.positions = s.positions ++ l0 := rpos
  have s2or : s2.origin = s.origin := ror
  have s2nor : s2.normal = s.normal := rnor
  have s2tri : s2.triangles = (s.triangles ++ [A]).set tid B := by
    show (r.2.triangles ++ [A]).set tid B = _
    rw [rtri]
  have hext : ∃ l, s2.positions = s.positions ++ l := ⟨l0, s2pos⟩
  have hvmono : ∀ v, validIdx s v → validIdx s2 v := fun v hv => validIdx_mono hext hv
  have rval2 : validIdx s2 r.1 := rval
  have rside2 : side s2 r.1 = 0 := rside
  refine ⟨⟨?_, ?_⟩, s2or, s2nor, hext, ?_, ?_⟩
  · -- triangles stay valid
    intro u hu
    rw [s2tri] at hu
    rcases List.mem_or_eq_of_mem_set hu with hu2 | rfl
    · rcases List.mem_append.mp hu2 with hu3 | hu3
      · obtain ⟨ha, hb, hc⟩ := hT u hu3
        exact ⟨hvmono _ ha, hvmono _ hb, hvmono _ hc⟩
      · obtain rfl : u = A := List.mem_singleton.mp hu3
        exact ⟨hvmono _ (Tri.get_valid tvalid n),
               hvmono _ (Tri.get_valid tvalid (n + 1)), rval2⟩
    · exact ⟨hvmono _ (Tri.get_valid tvalid n), rval2,
             hvmono _ (Tri.get_valid tvalid (n + 2))⟩
  · -- cache stays healthy
    exact hCr
  · -- one extra triangle
    rw [s2tri, List.length_set, List.length_append]
    rfl
  · -- the measure drops
    have hsum := sum_map_set (incTri s2) (s.triangles ++ [A]) tid B ⟨0, 0, 0⟩
      (by rw [List.length_append]; omega)
    have hgetD : (s.triangles ++ [A]).getD tid ⟨0, 0, 0⟩ = t := by
      rw [List.getD_append _ _ _ _ tidlt, ht]
      rfl
    rw [hgetD] at hsum
    have hmapappend : ((s.triangles ++ [A]).map (incTri s2)).sum
        = (s.triangles.map (incTri s2)).sum + incTri s2 A := by
      simp
    have hlistcongr : (s.triangles.map (incTri s2)).sum
        = (s.triangles.map (incTri s)).sum :=
      inc_list_congr s2or s2nor hext (fun u hu => hT u hu)
    rw [hmapappend, hlistcongr] at hsum
    have hAeq : incTri s2 A = if crossesB s (t.get n) (t.get (n + 1)) then 1 else 0 := by
      rw [hA, incTri_last_on_plane rside2,
          crossesB_congr s2or s2nor hext
            (Tri.get_valid tvalid n) (Tri.get_valid tvalid (n + 1))]
    have hBeq : incTri s2 B
        = if crossesB s (t.get (n + 2)) (t.get n) then 1 else 0 := by
      rw [hB, incTri_mid_on_plane rside2,
          crossesB_congr s2or s2nor hext
            (Tri.get_valid tvalid (n + 2)) (Tri.get_valid tvalid n)]
    have hparent : incTri s2 t = incTri s t := incTri_congr s2or s2nor hext tvalid
    have hinc2 : inc s2 + incTri s t = inc s + incTri s2 A + incTri s2 B := by
      unfold inc
      rw [s2tri] at *
      rw [hparent] at hsum
      omega
    have hfinal : incTri s2 A + incTri s2 B + 1 ≤ incTri s t := by
      rw [hAeq, hBeq]
      have hpar : incTri s t = (if crossesB s t.a t.b then 1 else 0)
          + (if crossesB s t.b t.c then 1 else 0)
          + (if crossesB s t.c t.a then 1 else 0) := rfl
      rw [hpar]
      interval_cases n
      · simp only [Nat.reduceAdd, Nat.zero_add, Tri.get_zero, Tri.get_one, Tri.get_two] at hcross ⊢
        have hone : (if crossesB s t.b t.c = true then (1 : ℕ) else 0) = 1 := by
          rw [hcross]; rfl
        rw [hone]
        split_ifs <;> omega
      · simp only [Nat.reduceAdd, Tri.get_one, Tri.get_two, Tri.get_three] at hcross ⊢
        have hone : (if crossesB s t.c t.a = true then (1 : ℕ) else 0) = 1 := by
          rw [hcross]; rfl
        rw [hone]
        split_ifs <;> omega
      · simp only [Nat.reduceAdd, Tri.get_two, Tri.get_three, Tri.get_four] at hcross ⊢
        have hone : (if crossesB s t.a t.b = true then (1 : ℕ) else 0) = 1 := by
          rw [hcross]; rfl
        rw [hone]
        split_ifs <;> omega
    omega

theorem do_triangle_false_facts {s : Slicer} {tid : ℕ}
    (h : (do_triangle s tid).1 = false) : (do_triangle s tid).2 = s := by
  rcases do_triangle_view s tid with ⟨he, _⟩ | ⟨n, _, _, _, he⟩
  · rw [he]
  · rw [he] at h; cases h

/-- The packaged guarantees of a `true` visit of `do_triangle`. -/
theorem do_triangle_true_facts {s : Slicer} {tid : ℕ} (hInv : Inv s)
    (h : (do_triangle s tid).1 = true) :
    Inv (do_triangle s tid).2
    ∧ (do_triangle s tid).2.origin = s.origin
    ∧ (do_triangle s tid).2.normal = s.normal
    ∧ (∃ l, (do_triangle s tid).2.positions = s.positions ++ l)
    ∧ (do_triangle s tid).2.triangles.length = s.triangles.length + 1
    ∧ inc (do_triangle s tid).2 + 1 ≤ inc s := by
  rcases do_triangle_view s tid with ⟨he, _⟩ | ⟨n, hn3, _, hneg, he⟩
  · rw [he] at h; cases h
  · rw [he]
    exact split_facts hInv hn3 hneg

/-! The cutting loop terminates and preserves the invariant. -/

theorem cutLoop_zero (s : Slicer) (tid : ℕ) :
    cutLoop 0 s tid = if tid < s.triangles.length then none else some s := rfl

theorem cutLoop_succ (f : ℕ) (s : Slicer) (tid : ℕ) :
    cutLoop (f + 1) s tid =
      if tid < s.triangles.length then
        cutLoop f (do_triangle s tid).2 (if (do_triangle s tid).1 then tid else tid + 1)
      else some s := rfl

/-- At most two crossing incidences per triangle. -/
theorem inc_le (s : Slicer) : inc s ≤ 2 * s.triangles.length := by
  unfold inc
  have hb : ∀ x ∈ s.triangles.map (incTri s), x ≤ 2 := by
    intro x hx
    obtain ⟨t, _, rfl⟩ := List.mem_map.mp hx
    exact incTri_le_two s t
  have := List.sum_le_card_nsmul (s.triangles.map (incTri s)) 2 hb
  simp only [List.length_map, smul_eq_mul] at this
  omega

/-- Fuel-indexed loop run: with `2*inc + (length - tid)` fuel the loop
completes, keeps the invariant, never shrinks the vertex sequence, and
adds at most `inc` triangles. -/
theorem cutLoop_facts :
    ∀ (fuel : ℕ) (s : Slicer) (tid : ℕ), Inv s →
      2 * inc s + s.triangles.length ≤ fuel + tid →
      ∃ s2, cutLoop fuel s tid = some s2 ∧ Inv s2
        ∧ s2.origin = s.origin ∧ s2.normal = s.normal
        ∧ (∃ l, s2.positions = s.positions ++ l)
        ∧ s2.triangles.length ≤ s.triangles.length + inc s := by
  intro fuel
  induction fuel with
  | zero =>
    intro s tid hInv hfuel
    by_cases hlt : tid < s.triangles.length
    · exfalso; omega
    · refine ⟨s, ?_, hInv, rfl, rfl, ⟨[], by simp⟩, by omega⟩
      rw [cutLoop_zero, if_neg hlt]
  | succ f ih =>
    intro s tid hInv hfuel
    by_cases hlt : tid < s.triangles.length
    · cases hb : (do_triangle s tid).1 with
      | false =>
        have hunch := do_triangle_false_facts hb
        have hstep : cutLoop (f + 1) s tid = cutLoop f s (tid + 1) := by
          rw [cutLoop_succ, if_pos hlt, hb, hunch]
          simp
        obtain ⟨s2, hres, hI2, ho2, hn2, hp2, hlen2⟩ := ih s (tid + 1) hInv (by omega)
        exact ⟨s2, by rw [hstep]; exact hres, hI2, ho2, hn2, hp2, by omega⟩
      | true =>
        obtain ⟨hI1, ho1, hn1, hp1, hlen1, hmeas⟩ := do_triangle_true_facts hInv hb
        have hstep : cutLoop (f + 1) s tid = cutLoop f (do_triangle s tid).2 tid := by
          rw [cutLoop_succ, if_pos hlt, hb]
          simp
        obtain ⟨s2, hres, hI2, ho2, hn2, hp2, hlen2⟩ :=
          ih (do_triangle s tid).2 tid hI1 (by omega)
        refine ⟨s2, by rw [hstep]; exact hres, hI2, ?_, ?_, ?_, by omega⟩
        · rw [ho2, ho1]
        · rw [hn2, hn1]
        · obtain ⟨l1, hp1e⟩ := hp1
          obtain ⟨l2, hp2e⟩ := hp2
          exact ⟨l1 ++ l2, by rw [hp2e, hp1e, List.append_assoc]⟩
    · refine ⟨s, ?_, hInv, rfl, rfl, ⟨[], by simp⟩, by omega⟩
      rw [cutLoop_succ, if_neg hlt]

/-- The state `cut` starts its loop from: cache cleared, everything else
kept. -/
def clearedState (s : Slicer) : Slicer := { s with intersections := [] }

theorem cut_eq (s : Slicer) :
    cut s = if s.origin = ⟨0, 0, 0⟩ then some (clearedState s)
            else cutLoop (7 * s.triangles.length + 1) (clearedState s) 0 := rfl

/-- `cut` terminates on every mesh with valid triangle indices, preserves
validity and the plane, only appends vertices, and at most quadruples…
precisely: the final triangle count is at most the original plus twice the
original (one extra triangle per crossing incidence, at most two per
triangle). -/
theorem cut_facts {s : Slicer} (hT : TrianglesValid s) :
    ∃ s2, cut s = some s2 ∧ TrianglesValid s2
      ∧ s2.origin = s.origin ∧ s2.normal = s.normal
      ∧ (∃ l, s2.positions = s.positions ++ l)
      ∧ s2.triangles.length ≤ 3 * s.triangles.length := by
  rw [cut_eq]
  have hT1 : TrianglesValid (clearedState s) := hT
  by_cases h0 : s.origin = ⟨0, 0, 0⟩
  · rw [if_pos h0]
    have hp : (clearedState s).positions = s.positions := rfl
    have hl : (clearedState s).triangles.length = s.triangles.length := rfl
    exact ⟨clearedState s, rfl, hT1, rfl, rfl, ⟨[], by rw [hp, List.append_nil]⟩,
           by omega⟩
  · rw [if_neg h0]
    have hInv : Inv (clearedState s) := ⟨hT1, by intro kv hkv; cases hkv⟩
    have hincle := inc_le (clearedState s)
    have hlen : (clearedState s).triangles.length = s.triangles.length := rfl
    obtain ⟨s2, hres, hI2, ho2, hn2, hp2, hlen2⟩ :=
      cutLoop_facts (7 * s.triangles.length + 1) (clearedState s) 0 hInv (by omega)
    exact ⟨s2, hres, hI2.1, ho2, hn2, hp2, by omega⟩

/-! Support lemmas used directly by individual claims. -/

theorem get_lambda_zero_normal (o p q : Vec3) :
    get_lambda o ⟨0, 0, 0⟩ p q = none := by
  unfold get_lambda
  simp

theorem crossesB_zero_normal {s : Slicer} (h : s.normal = ⟨0, 0, 0⟩) (i j : ℤ) :
    crossesB s i j = false := by
  unfold crossesB lambdaOf
  rw [h, get_lambda_zero_normal]

/-- When every visit is a no-op, the loop runs to completion leaving the
state untouched. -/
theorem cutLoop_id_of_noop {s : Slicer}
    (hno : ∀ tid, do_triangle s tid = (false, s)) :
    ∀ fuel tid, s.triangles.length ≤ fuel + tid → cutLoop fuel s tid = some s := by
  intro fuel
  induction fuel with
  | zero =>
    intro tid h
    rw [cutLoop_zero, if_neg (by omega)]
  | succ f ih =>
    intro tid h
    by_cases hlt : tid < s.triangles.length
    · rw [cutLoop_succ, if_pos hlt, hno tid]
      exact ih (tid + 1) (by omega)
    · rw [cutLoop_succ, if_neg hlt]

/-- The source swaps its arguments into canonical order, so the query is
symmetric in the edge's endpoints. -/
theorem gi_comm (s : Slicer) (i j : ℤ) :
    get_intersection s j i = get_intersection s i j := by
  unfold get_intersection
  rw [lo_comm j i, hi_comm j i]

theorem edgeKey_comm (i j : ℤ) : edgeKey j i = edgeKey i j := by
  unfold edgeKey
  rw [lo_comm j i, hi_comm j i]

theorem crossesB_false_of_same_side {s : Slicer} {i j : ℤ}
    (h : 0 < side s i * side s j) : crossesB s i j = false := by
  cases hcb : crossesB s i j with
  | false => rfl
  | true => exact absurd (side_mul_neg_of_crossesB hcb) (by linarith)

theorem lookupEdge_cons_self (k : ℤ × ℤ) (m : ℤ) (rest : List ((ℤ × ℤ) × ℤ)) :
    lookupEdge ((k, m) :: rest) k = some m := by
  unfold lookupEdge
  rw [if_pos rfl]

/-! Concrete states used by the claims below. -/

/-- The round-trip mesh of the spec: one triangle, cut by the plane
`x = 1`. -/
def mesh1 : Slicer :=
  { positions := [⟨0, 0, 0⟩, ⟨2, 0, 0⟩, ⟨0, 2, 0⟩],
    triangles := [⟨0, 1, 2⟩],
    origin := ⟨1, 0, 0⟩, normal := ⟨1, 0, 0⟩,
    intersections := [] }

/-- The same triangle with a zero normal. -/
def c2_mesh : Slicer :=
  { positions := [⟨0, 0, 0⟩, ⟨2, 0, 0⟩, ⟨0, 2, 0⟩],
    triangles := [⟨0, 1, 2⟩],
    origin := ⟨1, 0, 0⟩, normal := ⟨0, 0, 0⟩,
    intersections := [] }

/-- A mesh genuinely crossed by the plane through the world origin with
normal `(1,0,0)`. -/
def c3_mesh : Slicer :=
  { positions := [⟨-1, 0, 0⟩, ⟨1, 0, 0⟩, ⟨0, 2, 0⟩],
    triangles := [⟨0, 1, 2⟩],
    origin := ⟨0, 0, 0⟩, normal := ⟨1, 0, 0⟩,
    intersections := [] }

/-- An edge whose computed lambda is exactly the precision constant. -/
def c4_mesh : Slicer :=
  { positions := [⟨0, 0, 0⟩, ⟨1, 0, 0⟩],
    triangles := [],
    origin := ⟨99999 / 100000, 0, 0⟩, normal := ⟨1, 0, 0⟩,
    intersections := [] }

/-! The claims. -/

unseal Rat.sub Rat.add Rat.mul Rat.inv in
/-- C1: counterexample.  Cutting the mesh with vertices
`(0,0,0),(2,0,0),(0,2,0)`, the single triangle `(0,1,2)`, plane origin
`(1,0,0)` and normal `(1,0,0)` does NOT end with final triangle count 2:
the cut leaves 3 triangles (the crossed triangle decomposes into a
triangle and a quad, hence three triangles). -/
theorem c1_counterexample :
    ¬ ((cut mesh1).map (fun s2 => s2.triangles.length) = some 2) := by
  decide

unseal Rat.sub Rat.add Rat.mul Rat.inv in
/-- C1 (amended): the cut creates exactly 2 new vertices, positioned at
`(1,1,0)` (index 3, from edge 1-2) and `(1,0,0)` (index 4, from edge
0-1), and ends with vertex count 5 and final triangle count 3. -/
theorem c1_amended :
    (cut mesh1).map (fun s2 => (s2.positions, s2.triangles.length))
      = some ([⟨0, 0, 0⟩, ⟨2, 0, 0⟩, ⟨0, 2, 0⟩, ⟨1, 1, 0⟩, ⟨1, 0, 0⟩], 3) := by
  decide

/-- C2: for every mesh, calling `cut` with a zero normal vector is a
no-op: it returns (`some`, not an error), leaving the vertex sequence and
the triangle sequence unchanged. -/
theorem c2_zero_normal_noop (s : Slicer) (h : s.normal = ⟨0, 0, 0⟩) :
    ∃ s2, cut s = some s2 ∧ s2.positions = s.positions
      ∧ s2.triangles = s.triangles := by
  rw [cut_eq]
  by_cases h0 : s.origin = ⟨0, 0, 0⟩
  · rw [if_pos h0]
    exact ⟨clearedState s, rfl, rfl, rfl⟩
  · rw [if_neg h0]
    have hnn : (clearedState s).normal = ⟨0, 0, 0⟩ := h
    have hno : ∀ tid, do_triangle (clearedState s) tid = (false, clearedState s) := by
      intro tid
      rcases do_triangle_view (clearedState s) tid with ⟨he, _⟩ | ⟨n, _, _, hneg, _⟩
      · exact he
      · exact absurd (by rw [gi_not_cross (crossesB_zero_normal hnn _ _)]) hneg
    have hlen : (clearedState s).triangles.length = s.triangles.length := rfl
    exact ⟨clearedState s, cutLoop_id_of_noop hno _ 0 (by omega), rfl, rfl⟩

/-- C2 witness: the zero-normal cut of a concrete one-triangle mesh. -/
theorem c2_witness :
    c2_mesh.normal = ⟨0, 0, 0⟩
    ∧ ∃ s2, cut c2_mesh = some s2 ∧ s2.positions = c2_mesh.positions
        ∧ s2.triangles = c2_mesh.triangles :=
  ⟨rfl, c2_zero_normal_noop c2_mesh rfl⟩

/-- C3: if the plane origin is exactly `(0,0,0)`, `cut` returns
immediately after clearing the intersection cache, leaving the vertex and
triangle sequences unchanged — for every normal vector. -/
theorem c3_zero_origin (s : Slicer) (h : s.origin = ⟨0, 0, 0⟩) :
    cut s = some (clearedState s)
    ∧ (clearedState s).positions = s.positions
    ∧ (clearedState s).triangles = s.triangles
    ∧ (clearedState s).intersections = [] := by
  refine ⟨?_, rfl, rfl, rfl⟩
  rw [cut_eq, if_pos h]

unseal Rat.sub Rat.add Rat.mul Rat.inv in
/-- C3 witness: a zero-origin plane with a nonzero normal that genuinely
crosses the mesh (edge 0-1 passes the crossing test), yet `cut` is a
no-op. -/
theorem c3_witness :
    c3_mesh.origin = ⟨0, 0, 0⟩
    ∧ c3_mesh.normal ≠ ⟨0, 0, 0⟩
    ∧ crossesB c3_mesh 0 1 = true
    ∧ (cut c3_mesh = some (clearedState c3_mesh)
      ∧ (clearedState c3_mesh).positions = c3_mesh.positions
      ∧ (clearedState c3_mesh).triangles = c3_mesh.triangles
      ∧ (clearedState c3_mesh).intersections = []) :=
  ⟨rfl, by decide,
   by decide,
   c3_zero_origin c3_mesh rfl⟩

unseal Rat.sub Rat.add Rat.mul Rat.inv in
/-- C4: counterexample.  The crossing test accepts lambda equal to the
tolerance exactly: on this edge the computed lambda is `precision` itself,
which the open interval `(eps, 1-eps)` excludes, yet `get_intersection`
splits the edge (returns a vertex index, not `-1`). -/
theorem c4_counterexample :
    lambdaOf c4_mesh 0 1 = some precision
    ∧ (get_intersection c4_mesh 0 1).1 ≠ -1
    ∧ ¬ (precision < precision ∧ precision < 1 - precision) := by
  decide

/-- C4 (amended): an edge is treated as crossing (and split) exactly when
lambda is finite and lies in the CLOSED interval `[eps, 1-eps]` with
`eps = 1e-5` — both endpoints included; in particular a crossing with
lambda `= 0.000005 < eps` is rejected as non-crossing. -/
theorem c4_amended {s : Slicer} (hC : CacheOK s) (i j : ℤ) :
    ((get_intersection s i j).1 ≠ -1 ↔
      ∃ lam, lambdaOf s i j = some lam ∧ precision ≤ lam ∧ lam ≤ 1 - precision)
    ∧ (lambdaOf s i j = some (5 / 1000000) → (get_intersection s i j).1 = -1) := by
  constructor
  · have hbool : ((get_intersection s i j).1 ≠ -1) ↔ crossesB s i j = true := by
      rw [Ne, gi_fst_neg_iff hC]
      cases crossesB s i j <;> simp
    rw [hbool, crossesB_true_iff]
  · intro hl
    rw [gi_fst_neg_iff hC]
    unfold crossesB
    rw [hl]
    simp only [decide_eq_false_iff_not, not_and_or, not_le]
    left
    norm_num [precision]

/-- C4 witness: the amended crossing characterisation at the concrete
lambda-equals-precision edge. -/
theorem c4_witness :
    (((get_intersection c4_mesh 0 1).1 ≠ -1 ↔
      ∃ lam, lambdaOf c4_mesh 0 1 = some lam
        ∧ precision ≤ lam ∧ lam ≤ 1 - precision)
    ∧ (lambdaOf c4_mesh 0 1 = some (5 / 1000000)
        → (get_intersection c4_mesh 0 1).1 = -1)) :=
  c4_amended (by decide) 0 1

/-- C5: for a crossing edge not yet in the cache, `get_intersection` is
symmetric in its arguments, appends exactly one vertex on the first call,
returns the identical index on every repeat call (from either direction),
and in any later state of the same cut (same plane, only appended
vertices, entry cached) still returns that index without growing the
vertex sequence. -/
theorem c5_idempotent {s : Slicer} {i j : ℤ}
    (hiv : 0 ≤ i ∧ i < (s.positions.length : ℤ))
    (hjv : 0 ≤ j ∧ j < (s.positions.length : ℤ))
    (hfresh : lookupEdge s.intersections (edgeKey i j) = none)
    (hcr : (get_intersection s i j).1 ≠ -1) :
    ∃ m s1, get_intersection s i j = (m, s1)
      ∧ get_intersection s j i = (m, s1)
      ∧ s1.positions.length = s.positions.length + 1
      ∧ get_intersection s1 i j = (m, s1)
      ∧ get_intersection s1 j i = (m, s1)
      ∧ ∀ s2, s2.origin = s.origin → s2.normal = s.normal →
          (∃ l, s2.positions = s.positions ++ l) →
          lookupEdge s2.intersections (edgeKey i j) = some m →
          get_intersection s2 i j = (m, s2)
          ∧ get_intersection s2 j i = (m, s2) := by
  rcases gi_cases s i j with ⟨hc, he⟩ | ⟨m, hc, hm, he⟩ | ⟨lam, hl, h1, h2, hm, he⟩
  · rw [he] at hcr
    exact absurd rfl hcr
  · rw [hm] at hfresh
    cases hfresh
  · have hcrossS : crossesB s i j = true := (crossesB_true_iff s i j).mpr ⟨lam, hl, h1, h2⟩
    have hstab : ∀ s2, s2.origin = s.origin → s2.normal = s.normal →
        (∃ l, s2.positions = s.positions ++ l) →
        lookupEdge s2.intersections (edgeKey i j) = some ((get_intersection s i j).1) →
        get_intersection s2 i j = ((get_intersection s i j).1, s2)
        ∧ get_intersection s2 j i = ((get_intersection s i j).1, s2) := by
      intro s2 ho hn hp hk
      have hcross2 : crossesB s2 i j = true := by
        rw [crossesB_congr ho hn hp hiv hjv]
        exact hcrossS
      have h1e := gi_cached hcross2 hk
      exact ⟨h1e, by rw [gi_comm s2 i j]; exact h1e⟩
    refine ⟨(get_intersection s i j).1, (get_intersection s i j).2, rfl, ?_, ?_, ?_, ?_,
      fun s2 => hstab s2⟩
    · rw [gi_comm s i j]
    · rw [he]
      simp
    · exact (hstab (get_intersection s i j).2 (by rw [he]) (by rw [he])
        ⟨_, by rw [he]⟩ (by rw [he]; exact lookupEdge_cons_self _ _ _)).1
    · exact (hstab (get_intersection s i j).2 (by rw [he]) (by rw [he])
        ⟨_, by rw [he]⟩ (by rw [he]; exact lookupEdge_cons_self _ _ _)).2

unseal Rat.sub Rat.add Rat.mul Rat.inv in
/-- C5 witness: edge 1-2 of the concrete one-triangle mesh. -/
theorem c5_witness :
    (0 ≤ (1 : ℤ) ∧ (1 : ℤ) < (mesh1.positions.length : ℤ))
    ∧ (0 ≤ (2 : ℤ) ∧ (2 : ℤ) < (mesh1.positions.length : ℤ))
    ∧ lookupEdge mesh1.intersections (edgeKey 1 2) = none
    ∧ (get_intersection mesh1 1 2).1 ≠ -1
    ∧ (∃ m s1, get_intersection mesh1 1 2 = (m, s1)
        ∧ get_intersection mesh1 2 1 = (m, s1)
        ∧ s1.positions.length = mesh1.positions.length + 1
        ∧ get_intersection s1 1 2 = (m, s1)
        ∧ get_intersection s1 2 1 = (m, s1)
        ∧ ∀ s2, s2.origin = mesh1.origin → s2.normal = mesh1.normal →
            (∃ l, s2.positions = mesh1.positions ++ l) →
            lookupEdge s2.intersections (edgeKey 1 2) = some m →
            get_intersection s2 1 2 = (m, s2)
            ∧ get_intersection s2 2 1 = (m, s2)) :=
  ⟨by decide, by decide, by decide, by decide,
   c5_idempotent (by decide) (by decide) (by decide) (by decide)⟩

/-- C6: a `true` visit of triangle `tid` finds the first crossing edge
`(j,k)` in the fixed cyclic order (all earlier edges returned `-1`),
produces exactly the split state (append `(i,j,m)`, rewrite slot `tid` to
`(i,m,k)`, nothing further), and the loop then re-processes the same
index `tid` rather than advancing. -/
theorem c6_first_edge_split {s s1 : Slicer} {tid : ℕ}
    (h : do_triangle s tid = (true, s1)) :
    ∃ n < 3,
      (∀ n2 < n, (get_intersection s ((getTri s.triangles tid).get (n2 + 1))
          ((getTri s.triangles tid).get (n2 + 2))).1 = -1)
      ∧ (get_intersection s ((getTri s.triangles tid).get (n + 1))
          ((getTri s.triangles tid).get (n + 2))).1 ≠ -1
      ∧ s1 = splitAt s tid (getTri s.triangles tid) n
      ∧ tid < s.triangles.length
      ∧ ∀ fuel, cutLoop (fuel + 1) s tid = cutLoop fuel s1 tid := by
  rcases do_triangle_view s tid with ⟨he, _⟩ | ⟨n, hn3, hfirst, hneg, he⟩
  · rw [he] at h
    simp at h
  · rw [he] at h
    injection h with hb hs
    refine ⟨n, hn3, hfirst, hneg, hs.symm, split_tid_lt hneg, ?_⟩
    intro fuel
    rw [cutLoop_succ, if_pos (split_tid_lt hneg), he]
    show cutLoop fuel (splitAt s tid (getTri s.triangles tid) n) tid
      = cutLoop fuel s1 tid
    rw [hs]

/-- The state after the first visit of the concrete mesh's triangle 0. -/
def c6_state : Slicer := (do_triangle mesh1 0).2

unseal Rat.sub Rat.add Rat.mul Rat.inv in
/-- C6 witness: the first visit of triangle 0 of the concrete mesh. -/
theorem c6_witness :
    do_triangle mesh1 0 = (true, c6_state)
    ∧ ∃ n < 3,
        (∀ n2 < n, (get_intersection mesh1 ((getTri mesh1.triangles 0).get (n2 + 1))
            ((getTri mesh1.triangles 0).get (n2 + 2))).1 = -1)
        ∧ (get_intersection mesh1 ((getTri mesh1.triangles 0).get (n + 1))
            ((getTri mesh1.triangles 0).get (n + 2))).1 ≠ -1
        ∧ c6_state = splitAt mesh1 0 (getTri mesh1.triangles 0) n
        ∧ 0 < mesh1.triangles.length
        ∧ ∀ fuel, cutLoop (fuel + 1) mesh1 0 = cutLoop fuel c6_state 0 :=
  ⟨by decide, c6_first_edge_split (by decide)⟩

/-- Four unit-identical triangles over three unique edges: each original
triangle splits twice, giving 8 new triangles. -/
def c7_mesh : Slicer :=
  { positions := [⟨0, 0, 0⟩, ⟨2, 0, 0⟩, ⟨0, 2, 0⟩],
    triangles := [⟨0, 1, 2⟩, ⟨0, 1, 2⟩, ⟨0, 1, 2⟩, ⟨0, 1, 2⟩],
    origin := ⟨1, 0, 0⟩, normal := ⟨1, 0, 0⟩,
    intersections := [] }

unseal Rat.sub Rat.add Rat.mul Rat.inv in
/-- C7: counterexample.  On a valid mesh of T = 4 triangles with E = 3
unique edges, the cut terminates with 12 triangles: 8 new triangles,
which exceeds the claimed bound T + E = 7. -/
theorem c7_counterexample :
    TrianglesValid c7_mesh
    ∧ (cut c7_mesh).map (fun s2 => s2.triangles.length) = some 12
    ∧ c7_mesh.triangles.length = 4
    ∧ (uniqueEdges c7_mesh.triangles).length = 3
    ∧ ¬ (12 - 4 ≤ 4 + 3) := by
  decide

/-- C7 (amended): for every finite input mesh whose triangle indices are
valid, `cut` terminates, and it produces at most `2 * T` new triangles,
where T is the original triangle count (each triangle carries at most two
crossing edges, and every split permanently consumes one triangle-edge
crossing incidence). -/
theorem c7_amended {s : Slicer} (hT : TrianglesValid s) :
    ∃ s2, cut s = some s2
      ∧ s2.triangles.length ≤ s.triangles.length + 2 * s.triangles.length := by
  obtain ⟨s2, hres, _, _, _, _, hlen⟩ := cut_facts hT
  exact ⟨s2, hres, by omega⟩

/-- C7 witness: termination and the amended bound on the concrete
four-triangle mesh. -/
theorem c7_witness :
    TrianglesValid c7_mesh
    ∧ ∃ s2, cut c7_mesh = some s2
        ∧ s2.triangles.length
            ≤ c7_mesh.triangles.length + 2 * c7_mesh.triangles.length :=
  ⟨by decide, c7_amended (by decide)⟩

/-- C8: starting from valid triangle indices, every mutation of `cut`
preserves validity: `get_intersection` (which only appends a vertex),
`do_triangle` (append plus in-place rewrite, given a healthy cache as
`cut` maintains), and the whole `cut`. -/
theorem c8_validity {s : Slicer} (hT : TrianglesValid s) :
    (∀ i j, TrianglesValid (get_intersection s i j).2)
    ∧ (CacheOK s → ∀ tid, TrianglesValid (do_triangle s tid).2)
    ∧ (∀ s2, cut s = some s2 → TrianglesValid s2) := by
  refine ⟨fun i j => gi_trianglesValid i j hT, ?_, ?_⟩
  · intro hC tid
    cases hb : (do_triangle s tid).1 with
    | false =>
      rw [do_triangle_false_facts hb]
      exact hT
    | true => exact ((do_triangle_true_facts ⟨hT, hC⟩ hb).1).1
  · intro s2 hs2
    obtain ⟨s3, hres, hT3, _⟩ := cut_facts hT
    rw [hres] at hs2
    obtain rfl : s3 = s2 := Option.some.inj hs2
    exact hT3

/-- C8 witness: validity preservation on the concrete one-triangle
mesh. -/
theorem c8_witness :
    TrianglesValid mesh1
    ∧ ((∀ i j, TrianglesValid (get_intersection mesh1 i j).2)
      ∧ (CacheOK mesh1 → ∀ tid, TrianglesValid (do_triangle mesh1 tid).2)
      ∧ (∀ s2, cut mesh1 = some s2 → TrianglesValid s2)) :=
  ⟨by decide, c8_validity (by decide)⟩

/-- C9: with a healthy cache, every `get_intersection` call either
returns `-1` — exactly when lambda is non-finite or outside the tolerance
interval — leaving the state (vertex sequence and cache) unchanged, or
returns a valid vertex index, appending at most one vertex. -/
theorem c9_result {s : Slicer} (hC : CacheOK s) (i j : ℤ) :
    ((get_intersection s i j).1 = -1
      ∧ (get_intersection s i j).2 = s
      ∧ (lambdaOf s i j = none
          ∨ ∃ lam, lambdaOf s i j = some lam
              ∧ (lam < precision ∨ 1 - precision < lam)))
    ∨ (0 ≤ (get_intersection s i j).1
      ∧ (get_intersection s i j).1 < ((get_intersection s i j).2.positions.length : ℤ)
      ∧ s.positions.length ≤ (get_intersection s i j).2.positions.length
      ∧ (get_intersection s i j).2.positions.length ≤ s.positions.length + 1) := by
  rcases gi_cases s i j with ⟨hc, he⟩ | ⟨m, hc, hm, he⟩ | ⟨lam, hl, h1, h2, hm, he⟩
  · left
    refine ⟨by rw [he], by rw [he], ?_⟩
    unfold crossesB at hc
    cases hl : lambdaOf s i j with
    | none => exact Or.inl rfl
    | some lam =>
      right
      refine ⟨lam, rfl, ?_⟩
      rw [hl] at hc
      simp only [decide_eq_false_iff_not, not_and_or, not_le] at hc
      exact hc
  · right
    obtain ⟨⟨hm0, hmlt⟩, _⟩ := hC _ (lookupEdge_mem hm)
    have hf : (get_intersection s i j).1 = m := by rw [he]
    have hsnd : (get_intersection s i j).2 = s := by rw [he]
    rw [hf, hsnd]
    exact ⟨hm0, hmlt, le_refl _, by omega⟩
  · right
    have hfst : (get_intersection s i j).1 = (s.positions.length : ℤ) := by rw [he]
    have hpos : (get_intersection s i j).2.positions
        = s.positions ++
          [interp lam (getPos s.positions (lo i j)) (getPos s.positions (hi i j))] := by
      rw [he]
    rw [hfst, hpos, List.length_append, List.length_singleton]
    refine ⟨Int.natCast_nonneg _, by omega, by omega, by omega⟩

/-- C9 witness: the crossing edge 1-2 of the concrete mesh. -/
theorem c9_witness :
    CacheOK mesh1
    ∧ (((get_intersection mesh1 1 2).1 = -1
        ∧ (get_intersection mesh1 1 2).2 = mesh1
        ∧ (lambdaOf mesh1 1 2 = none
            ∨ ∃ lam, lambdaOf mesh1 1 2 = some lam
                ∧ (lam < precision ∨ 1 - precision < lam)))
      ∨ (0 ≤ (get_intersection mesh1 1 2).1
        ∧ (get_intersection mesh1 1 2).1
            < ((get_intersection mesh1 1 2).2.positions.length : ℤ)
        ∧ mesh1.positions.length ≤ (get_intersection mesh1 1 2).2.positions.length
        ∧ (get_intersection mesh1 1 2).2.positions.length
            ≤ mesh1.positions.length + 1)) :=
  ⟨by decide, c9_result (by decide) 1 2⟩

/-- C10: a triangle whose three vertices lie strictly on one side of the
plane is never rewritten or split: none of its three edges yields a
split, `do_triangle` leaves the state untouched, and the loop advances
past it. -/
theorem c10_one_side {s : Slicer} {tid : ℕ}
    (h : (0 < side s (getTri s.triangles tid).a
          ∧ 0 < side s (getTri s.triangles tid).b
          ∧ 0 < side s (getTri s.triangles tid).c)
       ∨ (side s (getTri s.triangles tid).a < 0
          ∧ side s (getTri s.triangles tid).b < 0
          ∧ side s (getTri s.triangles tid).c < 0)) :
    (∀ n < 3, (get_intersection s ((getTri s.triangles tid).get (n + 1))
        ((getTri s.triangles tid).get (n + 2))).1 = -1)
    ∧ do_triangle s tid = (false, s)
    ∧ ∀ fuel, cutLoop (fuel + 1) s tid = cutLoop fuel s (tid + 1) := by
  have hedges : ∀ n < 3, (get_intersection s ((getTri s.triangles tid).get (n + 1))
      ((getTri s.triangles tid).get (n + 2))).1 = -1 := by
    intro n hn
    have hcb : crossesB s ((getTri s.triangles tid).get (n + 1))
        ((getTri s.triangles tid).get (n + 2)) = false := by
      interval_cases n
      · simp only [Nat.reduceAdd, Nat.zero_add, Tri.get_one, Tri.get_two]
        apply crossesB_false_of_same_side
        rcases h with ⟨h1, h2, h3⟩ | ⟨h1, h2, h3⟩
        · exact mul_pos h2 h3
        · exact mul_pos_of_neg_of_neg h2 h3
      · simp only [Nat.reduceAdd, Tri.get_two, Tri.get_three]
        apply crossesB_false_of_same_side
        rcases h with ⟨h1, h2, h3⟩ | ⟨h1, h2, h3⟩
        · exact mul_pos h3 h1
        · exact mul_pos_of_neg_of_neg h3 h1
      · simp only [Nat.reduceAdd, Tri.get_three, Tri.get_four]
        apply crossesB_false_of_same_side
        rcases h with ⟨h1, h2, h3⟩ | ⟨h1, h2, h3⟩
        · exact mul_pos h1 h2
        · exact mul_pos_of_neg_of_neg h1 h2
    rw [gi_not_cross hcb]
  have hfalse : do_triangle s tid = (false, s) := by
    rcases do_triangle_view s tid with ⟨he, _⟩ | ⟨n, hn3, _, hneg, _⟩
    · exact he
    · exact absurd (hedges n hn3) hneg
  refine ⟨hedges, hfalse, ?_⟩
  intro fuel
  by_cases htid : tid < s.triangles.length
  · rw [cutLoop_succ, if_pos htid, hfalse]
    rfl
  · rw [cutLoop_succ, if_neg htid]
    cases fuel with
    | zero => rw [cutLoop_zero, if_neg (by omega)]
    | succ f => rw [cutLoop_succ, if_neg (by omega)]

/-- A triangle strictly on the positive side of the plane `x = 1`. -/
def c10_mesh : Slicer :=
  { positions := [⟨3, 0, 0⟩, ⟨4, 0, 0⟩, ⟨3, 1, 0⟩],
    triangles := [⟨0, 1, 2⟩],
    origin := ⟨1, 0, 0⟩, normal := ⟨1, 0, 0⟩,
    intersections := [] }

unseal Rat.sub Rat.add Rat.mul Rat.inv in
/-- C10 witness: a concrete strictly-one-sided triangle is left
untouched. -/
theorem c10_witness :
    ((0 < side c10_mesh (getTri c10_mesh.triangles 0).a
      ∧ 0 < side c10_mesh (getTri c10_mesh.triangles 0).b
      ∧ 0 < side c10_mesh (getTri c10_mesh.triangles 0).c)
     ∨ (side c10_mesh (getTri c10_mesh.triangles 0).a < 0
      ∧ side c10_mesh (getTri c10_mesh.triangles 0).b < 0
      ∧ side c10_mesh (getTri c10_mesh.triangles 0).c < 0))
    ∧ ((∀ n < 3, (get_intersection c10_mesh ((getTri c10_mesh.triangles 0).get (n + 1))
          ((getTri c10_mesh.triangles 0).get (n + 2))).1 = -1)
      ∧ do_triangle c10_mesh 0 = (false, c10_mesh)
      ∧ ∀ fuel, cutLoop (fuel + 1) c10_mesh 0 = cutLoop fuel c10_mesh (0 + 1)) :=
  ⟨by decide, c10_one_side (by decide)⟩

end MeshSlicer
